import Mathlib

/-!
Verification of the segmented-file-system UDP client (`src/main.rs`).

The development shallowly embeds the core of the client:
* the packet decoder `Packet::try_from` (bytes → Header/Data packet or parse error),
* the reassembly store `FileManager` (`HashMap<u8, (Option<OsString>, Option<u16>,
  HashMap<u16, Vec<u8>>)>`) with `process_packet` and `received_all_packets`,
* the chunk-ordering logic of `write_all_files`.

Bytes are `Fin 256`; Rust `HashMap`s are modelled as association lists whose
operations match `HashMap::entry(..).or_default()` and `HashMap::insert`; `u16`
arithmetic carries an explicit `% 2 ^ 16`.
-/

deriving instance DecidableEq for Except

/-- A `u8` byte. -/
abbrev Byte := Fin 256

/-- Mirror of the Rust `Packet` enum (`Header` and `Data` variants flattened
with the fields of the `Header` and `Data` structs).  The decoded file name is
kept as its list of Unicode code points (Rust stores a `String`/`OsString`);
`packet_number` is the decoded `u16` as a `Nat`. -/
inductive Packet where
  | header (file_id : Byte) (file_name : List Nat)
  | data (file_id : Byte) (packet_number : Nat) (is_last_packet : Bool) (data : List Byte)
deriving DecidableEq, Repr

/-- The three distinct `PacketParseError` messages produced by `try_from`:
"Packet too short", "Data packet too short", "Invalid UTF-8 sequence". -/
inductive PacketParseError where
  | tooShort
  | tooShortData
  | invalidEncoding
deriving DecidableEq, Repr

/-- Continuation byte test for UTF-8: `0x80 ≤ b ≤ 0xBF`. -/
def isCont (b : Byte) : Bool := 0x80 ≤ b.val && b.val ≤ 0xBF

/-- Embedding of `String::from_utf8` as used at `main.rs:57`: standard
(RFC 3629) UTF-8 validation and decoding, returning the code points on
success and `none` exactly when Rust would return `Err(FromUtf8Error)`.
Overlong encodings (`0xC0`/`0xC1`, and the restricted second-byte ranges after
`0xE0`/`0xF0`), surrogates (after `0xED`) and code points above `U+10FFFF`
(after `0xF4`) are rejected, as in Rust. -/
def utf8Decode : List Byte → Option (List Nat)
  | [] => some []
  | b :: rest =>
    if b.val ≤ 0x7F then
      (utf8Decode rest).map (b.val :: ·)
    else if 0xC2 ≤ b.val && b.val ≤ 0xDF then
      match rest with
      | c :: rest₂ =>
        if isCont c then
          (utf8Decode rest₂).map (((b.val - 0xC0) * 0x40 + (c.val - 0x80)) :: ·)
        else none
      | [] => none
    else if 0xE0 ≤ b.val && b.val ≤ 0xEF then
      match rest with
      | c :: d :: rest₂ =>
        if (if b.val = 0xE0 then decide (0xA0 ≤ c.val && c.val ≤ 0xBF)
            else if b.val = 0xED then decide (0x80 ≤ c.val && c.val ≤ 0x9F)
            else isCont c) && isCont d then
          (utf8Decode rest₂).map
            (((b.val - 0xE0) * 0x1000 + (c.val - 0x80) * 0x40 + (d.val - 0x80)) :: ·)
        else none
      | _ => none
    else if 0xF0 ≤ b.val && b.val ≤ 0xF4 then
      match rest with
      | c :: d :: e :: rest₂ =>
        if (if b.val = 0xF0 then decide (0x90 ≤ c.val && c.val ≤ 0xBF)
            else if b.val = 0xF4 then decide (0x80 ≤ c.val && c.val ≤ 0x8F)
            else isCont c) && isCont d && isCont e then
          (utf8Decode rest₂).map
            (((b.val - 0xF0) * 0x40000 + (c.val - 0x80) * 0x1000 +
              (d.val - 0x80) * 0x40 + (e.val - 0x80)) :: ·)
        else none
      | _ => none
    else none

/-- Embedding of `impl TryFrom<&[u8]> for Packet` (`main.rs:41-84`).
`bytes.len() < 2` → "Packet too short"; byte 0 is the status, byte 1 the file
id; even status → Header with `String::from_utf8(bytes[2..])` (failure →
"Invalid UTF-8 sequence"); odd status → Data, requiring `bytes.len() ≥ 4`,
with big-endian `u16` chunk number from bytes 2–3, `is_last_packet` iff
`status % 4 == 3`, payload `bytes[4..]`. -/
def tryFrom : List Byte → Except PacketParseError Packet
  | [] => .error .tooShort
  | [_] => .error .tooShort
  | status :: file_id :: rest =>
    if status.val % 2 = 0 then
      match utf8Decode rest with
      | some file_name => .ok (.header file_id file_name)
      | none => .error .invalidEncoding
    else
      match rest with
      | b2 :: b3 :: payload =>
        .ok (.data file_id (b2.val * 256 + b3.val) (decide (status.val % 4 = 3)) payload)
      | _ => .error .tooShortData

/-- Panic-aware version of the decoder: every slice index of the Rust code
(`bytes[0]`, `bytes[1]`, `bytes[2..]`, `bytes[2]`, `bytes[3]`, `bytes[4..]`)
is performed through `List.get?` behind the same length guards as the source,
and `none` is the outcome "an index was out of bounds (panic)". -/
def tryFromChecked (bytes : List Byte) : Option (Except PacketParseError Packet) :=
  if bytes.length < 2 then some (.error .tooShort)
  else do
    let status ← bytes.get? 0
    let file_id ← bytes.get? 1
    if status.val % 2 = 0 then
      match utf8Decode (bytes.drop 2) with
      | some file_name => some (.ok (.header file_id file_name))
      | none => some (.error .invalidEncoding)
    else
      if bytes.length < 4 then some (.error .tooShortData)
      else do
        let b2 ← bytes.get? 2
        let b3 ← bytes.get? 3
        some (.ok (.data file_id (b2.val * 256 + b3.val) (decide (status.val % 4 = 3))
          (bytes.drop 4)))

/-! ### The reassembly store -/

/-- Lookup of the first entry with key `k`, modelling `HashMap::get` /
`HashMap::entry` on a map represented as an association list. -/
def alLookup {α β : Type} [DecidableEq α] (k : α) : List (α × β) → Option β
  | [] => none
  | (k', v) :: rest => if k = k' then some v else alLookup k rest

/-- Model of `map.entry(k).or_default()` followed by a mutation `f` of the
entry: if `k` is present its (first) value is replaced by `f` of it, otherwise
`(k, f d)` is added, `d` being the `Default` value. -/
def alUpsert {α β : Type} [DecidableEq α] (k : α) (d : β) (f : β → β) :
    List (α × β) → List (α × β)
  | [] => [(k, f d)]
  | (k', v) :: rest =>
    if k = k' then (k', f v) :: rest else (k', v) :: alUpsert k d f rest

/-- Model of `HashMap::insert k v`. -/
def alInsert {α β : Type} [DecidableEq α] (k : α) (v : β) (m : List (α × β)) :
    List (α × β) :=
  alUpsert k v (fun _ => v) m

/-- One value of the `FileManager.files` map: the Rust tuple
`(Option<OsString>, Option<u16>, HashMap<u16, Vec<u8>>)` — the file name, the
expected packet count, and the buffered chunks keyed by packet number. -/
structure FileGroup where
  name : Option (List Nat)
  expected : Option Nat
  chunks : List (Nat × List Byte)
deriving DecidableEq, Repr

/-- The `Default` value of a map entry (`None, None, HashMap::new()`). -/
def emptyGroup : FileGroup := ⟨none, none, []⟩

/-- The `FileManager` state: `files: HashMap<u8, ...>` as an association list
keyed by file id. -/
abbrev FileManager := List (Byte × FileGroup)

/-- Well-formedness that every state reachable through `HashMap` operations
has: file ids are pairwise distinct keys and so are the chunk indices inside
each group. -/
def WF (m : FileManager) : Prop :=
  (m.map Prod.fst).Nodup ∧ ∀ p ∈ m, (p.2.chunks.map Prod.fst).Nodup

instance : DecidablePred WF := fun m => by
  unfold WF; infer_instance

/-- The completeness test applied to each map value inside
`received_all_packets` (`main.rs:99-102`): `expected` must be set, the number
of buffered chunks must equal it, and the name must be set. -/
def groupDone (g : FileGroup) : Bool :=
  match g.expected with
  | some count => g.chunks.length == count && g.name.isSome
  | none => false

/-- Embedding of `FileManager::received_all_packets` (`main.rs:94-103`):
`files.len() == 3` and every value passes the per-group check. -/
def received_all_packets (m : FileManager) : Bool :=
  m.length == 3 && m.all fun p => groupDone p.2

/-- Embedding of `FileManager::process_packet` (`main.rs:106-126`).  A Header
stores the name in the (possibly freshly defaulted) entry; a Data packet
inserts the payload under its packet number and, if it is flagged last, sets
the expected count to `packet_number + 1` — a `u16` addition, hence the
explicit `% 2 ^ 16`. -/
def process_packet (m : FileManager) (p : Packet) : FileManager :=
  match p with
  | .header file_id file_name =>
    alUpsert file_id emptyGroup (fun g => { g with name := some file_name }) m
  | .data file_id packet_number is_last payload =>
    alUpsert file_id emptyGroup
      (fun g =>
        { g with
          chunks := alInsert packet_number payload g.chunks
          expected :=
            if is_last then some ((packet_number + 1) % 2 ^ 16) else g.expected })
      m

/-- Folding a packet sequence into the store, as the receive loop at
`main.rs:177-183` does. -/
def applyAll (m : FileManager) (ps : List Packet) : FileManager :=
  ps.foldl process_packet m

/-- The byte stream `write_all_files` (`main.rs:129-145`) emits for one group:
collect the chunk keys, sort them ascending (`sort_unstable`), and concatenate
the payload found for each key in that order. -/
def fileBytes (chunks : List (Nat × List Byte)) : List Byte :=
  ((chunks.map Prod.fst).insertionSort (· ≤ ·)).flatMap
    fun k => (alLookup k chunks).getD []

/-- What `write_all_files` produces for a given file id: the stored name and
the reassembled byte stream, or `none` if the id is absent.  The on-disk
result is this, for every id in the store (`HashMap` iteration order does not
affect it, as each id is written to its own path). -/
def fileOutput (m : FileManager) (fid : Byte) : Option (Option (List Nat) × List Byte) :=
  (alLookup fid m).map fun g => (g.name, fileBytes g.chunks)

/-- A store in which the transfer is done: three file ids, each with a name,
an expected count of 1, and one buffered chunk. -/
def exDoneStore : FileManager :=
  [(0, ⟨some [97], some 1, [(0, [1])]⟩),
   (1, ⟨some [98], some 1, [(0, [2])]⟩),
   (2, ⟨some [99], some 1, [(0, [3])]⟩)]

/-- The exact condition under which a packet keeps a done store done: its
file id must already be present, and a Data packet must either re-deliver an
already-buffered chunk index without the last flag, or carry the last flag
with `(chunk_index + 1) % 2 ^ 16` equal to the group's chunk count after the
insertion (the old count, plus one when the index is fresh). -/
def keepsDone (m : FileManager) : Packet → Prop
  | .header fid _ => fid ∈ m.map Prod.fst
  | .data fid idx false _ =>
      ∃ g, alLookup fid m = some g ∧ idx ∈ g.chunks.map Prod.fst
  | .data fid idx true _ =>
      ∃ g, alLookup fid m = some g ∧
        (idx + 1) % 2 ^ 16 =
          g.chunks.length + (if idx ∈ g.chunks.map Prod.fst then 0 else 1)

/-- A packet run with a gap: file 0 receives chunks 2 and 1 (chunk 1 flagged
last), index 0 never arrives. -/
def gapPackets : List Packet :=
  [.header 0 [97], .data 0 2 false [9, 9], .data 0 1 true [8],
   .header 1 [98], .data 1 0 true [1],
   .header 2 [99], .data 2 0 true [2]]

/-- Whether a packet is a Data packet. -/
def Packet.isData : Packet → Bool
  | .data _ _ _ _ => true
  | .header _ _ => false

/-- The chunk index a Data packet writes to (0 for Header packets, which is
irrelevant under an all-Data hypothesis). -/
def Packet.chunkIdx : Packet → Nat
  | .data _ i _ _ => i
  | .header _ _ => 0

/-- Observational equivalence of groups for the File Writer: same name and
same chunk map, the memoised expected count being irrelevant to the written
bytes. -/
def groupObsEquiv (g₁ g₂ : FileGroup) : Prop :=
  g₁.name = g₂.name ∧ ∀ k, alLookup k g₁.chunks = alLookup k g₂.chunks

/-- `groupObsEquiv` lifted to optional groups. -/
def optGroupEquiv : Option FileGroup → Option FileGroup → Prop
  | none, none => True
  | some g₁, some g₂ => groupObsEquiv g₁ g₂
  | _, _ => False

/-- Observational equivalence of stores: every file id resolves to
equivalent groups. -/
def storeObsEquiv (m₁ m₂ : FileManager) : Prop :=
  ∀ fid, optGroupEquiv (alLookup fid m₁) (alLookup fid m₂)

example : tryFrom [0x01, 0x05, 0x00, 0x01, 0x09, 0x09] =
    .ok (.data 5 1 false [9, 9]) := by decide

example : tryFrom [0x00, 0x07, 102, 111, 111, 46, 116, 120, 116] =
    .ok (.header 7 [102, 111, 111, 46, 116, 120, 116]) := by decide

example : tryFrom [0x03, 0x05] = .error .tooShortData := by decide

example :
    applyAll [] [.header 7 [97], .data 7 1 true [5, 6], .data 7 0 false [1]] =
      [(7, ⟨some [97], some 2, [(1, [5, 6]), (0, [1])]⟩)] := by decide

example :
    received_all_packets
      [(0, ⟨some [97], some 1, [(0, [1])]⟩),
       (1, ⟨some [98], some 1, [(0, [2])]⟩),
       (2, ⟨some [99], some 1, [(0, [3])]⟩)] = true := by decide

example : fileBytes [(2, [9]), (0, [1, 2]), (1, [5])] = [1, 2, 5, 9] := by decide

/-! ### Association-list lemmas -/

section ALists

variable {α β : Type} [DecidableEq α]

theorem alLookup_upsert (k k' : α) (d : β) (f : β → β) (m : List (α × β)) :
    alLookup k (alUpsert k' d f m) =
      if k = k' then some (f ((alLookup k' m).getD d)) else alLookup k m := by
  induction m with
  | nil =>
    by_cases h : k = k' <;> simp [alUpsert, alLookup, h]
  | cons hd tl ih =>
    obtain ⟨a, v⟩ := hd
    by_cases h1 : k' = a
    · subst h1
      by_cases h2 : k = k' <;> simp [alUpsert, alLookup, h2]
    · by_cases h2 : k = a
      · subst h2
        have h3 : ¬ k = k' := fun h => h1 h.symm
        simp [alUpsert, alLookup, h1, h3]
      · simp [alUpsert, alLookup, h1, h2, ih]

theorem alLookup_isSome_iff (k : α) (m : List (α × β)) :
    (alLookup k m).isSome = true ↔ k ∈ m.map Prod.fst := by
  induction m with
  | nil => simp [alLookup]
  | cons hd tl ih =>
    obtain ⟨a, v⟩ := hd
    by_cases h : k = a <;> simp [alLookup, h, ih]

theorem keys_upsert (k : α) (d : β) (f : β → β) (m : List (α × β)) :
    (alUpsert k d f m).map Prod.fst =
      if k ∈ m.map Prod.fst then m.map Prod.fst else m.map Prod.fst ++ [k] := by
  induction m with
  | nil => simp [alUpsert]
  | cons hd tl ih =>
    obtain ⟨a, v⟩ := hd
    by_cases h : k = a
    · simp [alUpsert, h]
    · simp only [alUpsert, if_neg h, List.map_cons, ih, List.mem_cons]
      by_cases h2 : k ∈ tl.map Prod.fst <;> simp [h, h2]

theorem length_upsert (k : α) (d : β) (f : β → β) (m : List (α × β)) :
    (alUpsert k d f m).length =
      if k ∈ m.map Prod.fst then m.length else m.length + 1 := by
  have h := congrArg List.length (keys_upsert k d f m)
  simp only [List.length_map] at h
  rw [h]
  by_cases h2 : k ∈ m.map Prod.fst <;> simp [h2, List.length_map]

theorem mem_upsert (k : α) (d : β) (f : β → β) (m : List (α × β)) :
    ∀ p ∈ alUpsert k d f m, p ∈ m ∨ p = (k, f ((alLookup k m).getD d)) := by
  induction m with
  | nil =>
    intro p hp
    simp [alUpsert] at hp
    simp [alLookup, hp]
  | cons hd tl ih =>
    obtain ⟨a, v⟩ := hd
    intro p hp
    by_cases h : k = a
    · subst h
      simp only [alUpsert, if_pos rfl] at hp
      rcases List.mem_cons.mp hp with h1 | h1
      · right; simp [alLookup, h1]
      · left; exact List.mem_cons_of_mem _ h1
    · simp only [alUpsert, if_neg h] at hp
      rcases List.mem_cons.mp hp with h1 | h1
      · left; simp [h1]
      · rcases ih p h1 with h2 | h2
        · left; exact List.mem_cons_of_mem _ h2
        · right; simpa [alLookup, h] using h2

theorem nodup_keys_upsert (k : α) (d : β) (f : β → β) (m : List (α × β))
    (h : (m.map Prod.fst).Nodup) : ((alUpsert k d f m).map Prod.fst).Nodup := by
  rw [keys_upsert]
  by_cases h2 : k ∈ m.map Prod.fst
  · simpa [h2]
  · simpa [h2, List.nodup_append] using h

theorem alLookup_insert (k k' : α) (v : β) (m : List (α × β)) :
    alLookup k (alInsert k' v m) = if k = k' then some v else alLookup k m := by
  simp [alInsert, alLookup_upsert]

theorem keys_insert (k : α) (v : β) (m : List (α × β)) :
    (alInsert k v m).map Prod.fst =
      if k ∈ m.map Prod.fst then m.map Prod.fst else m.map Prod.fst ++ [k] :=
  keys_upsert k v _ m

theorem length_insert (k : α) (v : β) (m : List (α × β)) :
    (alInsert k v m).length =
      if k ∈ m.map Prod.fst then m.length else m.length + 1 :=
  length_upsert k v _ m

end ALists

/-! ### Decoder claims -/

/-- C3: every byte sequence of length at least 4 whose status byte is odd
decodes to a Data packet with file id byte 1, big-endian chunk index from
bytes 2–3, `is_last` iff `status % 4 = 3`, and the remaining bytes as
payload. -/
theorem decode_data_packet (status fid b2 b3 : Byte) (rest : List Byte)
    (h : status.val % 2 = 1) :
    tryFrom (status :: fid :: b2 :: b3 :: rest) =
      .ok (.data fid (b2.val * 256 + b3.val) (decide (status.val % 4 = 3)) rest) := by
  have h0 : ¬ status.val % 2 = 0 := by omega
  simp [tryFrom, h0]

/-- C3 witness: the spec's example datagram. -/
theorem decode_data_packet_witness :
    (1 : Byte).val % 2 = 1 ∧
      tryFrom [1, 5, 0, 1, 9, 9] = .ok (.data 5 1 false [9, 9]) :=
  ⟨by decide, by simpa using decode_data_packet 1 5 0 1 [9, 9] (by decide)⟩

/-- C4: every byte sequence of length at least 2 whose status byte is even
decodes to a Header packet carrying the UTF-8 decoding of the remaining
bytes, and fails with `invalidEncoding` exactly when they are not valid
UTF-8. -/
theorem decode_header_packet (status fid : Byte) (rest : List Byte)
    (h : status.val % 2 = 0) :
    tryFrom (status :: fid :: rest) =
      match utf8Decode rest with
      | some file_name => .ok (.header fid file_name)
      | none => .error .invalidEncoding := by
  simp [tryFrom, h]

/-- C4 witness: the spec's "foo.txt" example and an invalid-UTF-8 input. -/
theorem decode_header_packet_witness :
    tryFrom [0, 7, 102, 111, 111, 46, 116, 120, 116] =
        .ok (.header 7 [102, 111, 111, 46, 116, 120, 116]) ∧
      tryFrom [0, 7, 0xFF] = .error .invalidEncoding := by
  constructor
  · simpa using decode_header_packet 0 7 [102, 111, 111, 46, 116, 120, 116] (by decide)
  · simpa using decode_header_packet 0 7 [0xFF] (by decide)

/-- C7: `tooShort` is returned exactly on inputs of fewer than 2 bytes, and
`tooShortData` exactly on inputs of length 2 or 3 whose status byte is
odd. -/
theorem decode_short_errors (bytes : List Byte) :
    (tryFrom bytes = .error .tooShort ↔ bytes.length < 2) ∧
    (tryFrom bytes = .error .tooShortData ↔
      2 ≤ bytes.length ∧ bytes.length < 4 ∧ (bytes.headD 0).val % 2 = 1) := by
  match bytes with
  | [] => simp [tryFrom]
  | [a] => simp [tryFrom]
  | a :: b :: rest =>
    by_cases hpar : a.val % 2 = 0
    · have hodd : ¬ ((a :: b :: rest).headD 0).val % 2 = 1 := by
        simp only [List.headD_cons]; omega
      cases hu : utf8Decode rest <;>
        simp [tryFrom, hpar, hu, hodd]
    · have hodd : ((a :: b :: rest).headD 0).val % 2 = 1 := by
        simp only [List.headD_cons]; omega
      match rest with
      | [] => simp [tryFrom, hpar]; omega
      | [c] => simp [tryFrom, hpar]; omega
      | c :: d :: tl => simp [tryFrom, hpar, hodd]

/-- C7 witness: a 1-byte input and a 3-byte odd-status input. -/
theorem decode_short_errors_witness :
    (tryFrom [9] = .error .tooShort ↔ ([9] : List Byte).length < 2) ∧
      (tryFrom [3, 5, 0] = .error .tooShortData ↔
        2 ≤ ([3, 5, 0] : List Byte).length ∧ ([3, 5, 0] : List Byte).length < 4 ∧
          (([3, 5, 0] : List Byte).headD 0).val % 2 = 1) :=
  ⟨(decode_short_errors [9]).1, (decode_short_errors [3, 5, 0]).2⟩

/-! ### Store lemmas and claims -/

theorem alLookup_mem {α β : Type} [DecidableEq α] {k : α} {v : β}
    {m : List (α × β)} (h : alLookup k m = some v) : (k, v) ∈ m := by
  induction m with
  | nil => simp [alLookup] at h
  | cons hd tl ih =>
    obtain ⟨a, w⟩ := hd
    by_cases h2 : k = a
    · subst h2
      simp only [alLookup, if_pos rfl] at h
      injection h with h
      subst h
      exact List.mem_cons_self _ _
    · simp only [alLookup, if_neg h2] at h
      exact List.mem_cons_of_mem _ (ih h)

theorem mem_keys_upsert {α β : Type} [DecidableEq α] {k k' : α} (d : β)
    (f : β → β) (m : List (α × β)) (h : k ∈ m.map Prod.fst) :
    k ∈ (alUpsert k' d f m).map Prod.fst := by
  rw [keys_upsert]
  split
  · exact h
  · exact List.mem_append_left _ h

theorem mem_keys_insert {α β : Type} [DecidableEq α] {k k' : α} (v : β)
    (m : List (α × β)) (h : k ∈ m.map Prod.fst) :
    k ∈ (alInsert k' v m).map Prod.fst :=
  mem_keys_upsert _ _ m h

/-- Closed form of a Data packet's effect on any file id's lookup. -/
theorem alLookup_process_data (m : FileManager) (f : Byte) (i : Nat) (l : Bool)
    (d : List Byte) (fid : Byte) :
    alLookup fid (process_packet m (.data f i l d)) =
      if fid = f then
        some
          { name := ((alLookup f m).getD emptyGroup).name
            expected :=
              if l then some ((i + 1) % 2 ^ 16)
              else ((alLookup f m).getD emptyGroup).expected
            chunks := alInsert i d ((alLookup f m).getD emptyGroup).chunks }
      else alLookup fid m := by
  simp only [process_packet, alLookup_upsert]

theorem received_all_packets_iff (m : FileManager) :
    received_all_packets m = true ↔
      m.length = 3 ∧ ∀ p ∈ m, groupDone p.2 = true := by
  simp [received_all_packets, List.all_eq_true]

/-- C1: `received_all_packets` holds iff the store has exactly 3 distinct
file ids and every group has its name set, its expected count set, and
exactly that many distinct buffered chunk indices. -/
theorem done_iff_three_complete (m : FileManager) (hwf : WF m) :
    received_all_packets m = true ↔
      (m.map Prod.fst).dedup.length = 3 ∧
      ∀ g ∈ m.map Prod.snd,
        g.name.isSome = true ∧ ∃ c, g.expected = some c ∧
          (g.chunks.map Prod.fst).dedup.length = c := by
  obtain ⟨h1, h2⟩ := hwf
  rw [received_all_packets_iff, List.Nodup.dedup h1, List.length_map]
  constructor
  · rintro ⟨hlen, hall⟩
    refine ⟨hlen, ?_⟩
    intro g hg
    rw [List.mem_map] at hg
    obtain ⟨p, hp, rfl⟩ := hg
    have hd := hall p hp
    have hcn : (p.2.chunks.map Prod.fst).Nodup := h2 p hp
    cases he : p.2.expected with
    | none => simp [groupDone, he] at hd
    | some c =>
      simp only [groupDone, he, Bool.and_eq_true, beq_iff_eq] at hd
      exact ⟨hd.2, c, rfl, by rw [List.Nodup.dedup hcn, List.length_map]; exact hd.1⟩
  · rintro ⟨hlen, hall⟩
    refine ⟨hlen, ?_⟩
    intro p hp
    obtain ⟨hname, c, hc, hcount⟩ := hall p.2 (List.mem_map_of_mem Prod.snd hp)
    have hcn := h2 p hp
    rw [List.Nodup.dedup hcn, List.length_map] at hcount
    simp [groupDone, hc, hcount, hname]

/-- C1 witness: a concrete done store. -/
theorem done_iff_three_complete_witness :
    received_all_packets exDoneStore = true ↔
      (exDoneStore.map Prod.fst).dedup.length = 3 ∧
      ∀ g ∈ exDoneStore.map Prod.snd,
        g.name.isSome = true ∧ ∃ c, g.expected = some c ∧
          (g.chunks.map Prod.fst).dedup.length = c :=
  done_iff_three_complete exDoneStore (by decide)

/-- C2 counterexample: in a done store, a Header packet with a fresh file id
makes `files.len() == 3` fail, so `received_all_packets` drops back to
`false` — the predicate is not monotonic for arbitrary packets. -/
theorem done_not_monotonic :
    received_all_packets exDoneStore = true ∧
      received_all_packets (process_packet exDoneStore (.header 3 [])) = false := by
  decide

/-- C2 amended: the completion predicate is not monotonic; once true it is
preserved by a packet if and only if `keepsDone` holds — the packet's file id
is already present and, for a Data packet, its insertion leaves the chunk
count equal to the (possibly rewritten) expected count.  A fresh file id
always falsifies it. -/
theorem done_preserved_iff (m : FileManager) (p : Packet)
    (hdone : received_all_packets m = true) :
    received_all_packets (process_packet m p) = true ↔ keepsDone m p := by
  rw [received_all_packets_iff] at hdone
  obtain ⟨hlen, hall⟩ := hdone
  cases p with
  | header fid n =>
    constructor
    · intro h
      rw [received_all_packets_iff] at h
      show fid ∈ m.map Prod.fst
      by_contra hmem
      have h1 := h.1
      simp only [process_packet, length_upsert, if_neg hmem, hlen] at h1
      omega
    · intro hp
      have hmem : fid ∈ m.map Prod.fst := hp
      rw [received_all_packets_iff]
      constructor
      · simp only [process_packet, length_upsert, if_pos hmem, hlen]
      · intro q hq
        rcases mem_upsert _ _ _ _ q hq with h | h
        · exact hall q h
        · subst h
          rcases Option.isSome_iff_exists.mp ((alLookup_isSome_iff fid m).mpr hmem)
            with ⟨g, hg⟩
          have hgd := hall (fid, g) (alLookup_mem hg)
          rw [hg]
          cases he : g.expected with
          | none => simp [groupDone, he] at hgd
          | some c =>
            simp only [groupDone, he, Bool.and_eq_true, beq_iff_eq] at hgd
            simp [groupDone, he, Option.getD_some, hgd.1]
  | data fid idx last pay =>
    cases last with
    | false =>
      constructor
      · intro h
        rw [received_all_packets_iff] at h
        by_cases hmem : fid ∈ m.map Prod.fst
        · rcases Option.isSome_iff_exists.mp ((alLookup_isSome_iff fid m).mpr hmem)
            with ⟨g, hg⟩
          have hgd := hall (fid, g) (alLookup_mem hg)
          have hlook : alLookup fid (process_packet m (.data fid idx false pay)) =
              some { name := g.name, expected := g.expected
                     chunks := alInsert idx pay g.chunks } := by
            rw [alLookup_process_data, if_pos rfl, hg]
            simp
          have hgd2 := h.2 _ (alLookup_mem hlook)
          simp only [keepsDone]
          refine ⟨g, hg, ?_⟩
          cases he : g.expected with
          | none => simp [groupDone, he] at hgd
          | some c =>
            simp only [groupDone, he, Bool.and_eq_true, beq_iff_eq] at hgd hgd2
            by_contra hi
            have h2 := hgd2.1
            rw [length_insert, if_neg hi] at h2
            omega
        · exfalso
          have h1 := h.1
          simp only [process_packet, length_upsert, if_neg hmem, hlen] at h1
          omega
      · intro hp
        simp only [keepsDone] at hp
        obtain ⟨g, hg, hi⟩ := hp
        have hmem : fid ∈ m.map Prod.fst :=
          (alLookup_isSome_iff fid m).mp (by rw [hg]; rfl)
        rw [received_all_packets_iff]
        refine ⟨by simp only [process_packet, length_upsert, if_pos hmem, hlen], ?_⟩
        intro q hq
        rcases mem_upsert _ _ _ _ q hq with h | h
        · exact hall q h
        · subst h
          have hgd := hall (fid, g) (alLookup_mem hg)
          rw [hg]
          cases he : g.expected with
          | none => simp [groupDone, he] at hgd
          | some c =>
            simp only [groupDone, he, Bool.and_eq_true, beq_iff_eq] at hgd
            have hclen : (alInsert idx pay g.chunks).length = g.chunks.length := by
              rw [length_insert, if_pos hi]
            simp [groupDone, he, Option.getD_some, hclen, hgd.1, hgd.2]
    | true =>
      constructor
      · intro h
        rw [received_all_packets_iff] at h
        by_cases hmem : fid ∈ m.map Prod.fst
        · rcases Option.isSome_iff_exists.mp ((alLookup_isSome_iff fid m).mpr hmem)
            with ⟨g, hg⟩
          have hlook : alLookup fid (process_packet m (.data fid idx true pay)) =
              some { name := g.name, expected := some ((idx + 1) % 2 ^ 16)
                     chunks := alInsert idx pay g.chunks } := by
            rw [alLookup_process_data, if_pos rfl, hg]
            simp
          have hgd2 := h.2 _ (alLookup_mem hlook)
          simp only [keepsDone]
          refine ⟨g, hg, ?_⟩
          simp only [groupDone, Bool.and_eq_true, beq_iff_eq] at hgd2
          have h2 := hgd2.1
          by_cases hi : idx ∈ g.chunks.map Prod.fst
          · rw [length_insert, if_pos hi] at h2
            rw [if_pos hi]
            omega
          · rw [length_insert, if_neg hi] at h2
            rw [if_neg hi]
            omega
        · exfalso
          have h1 := h.1
          simp only [process_packet, length_upsert, if_neg hmem, hlen] at h1
          omega
      · intro hp
        simp only [keepsDone] at hp
        obtain ⟨g, hg, hcnt⟩ := hp
        have hmem : fid ∈ m.map Prod.fst :=
          (alLookup_isSome_iff fid m).mp (by rw [hg]; rfl)
        rw [received_all_packets_iff]
        refine ⟨by simp only [process_packet, length_upsert, if_pos hmem, hlen], ?_⟩
        intro q hq
        rcases mem_upsert _ _ _ _ q hq with h | h
        · exact hall q h
        · subst h
          have hgd := hall (fid, g) (alLookup_mem hg)
          rw [hg]
          cases he : g.expected with
          | none => simp [groupDone, he] at hgd
          | some c =>
            have h2 : (alInsert idx pay g.chunks).length = (idx + 1) % 2 ^ 16 := by
              rw [length_insert]
              by_cases hi : idx ∈ g.chunks.map Prod.fst
              · rw [if_pos hi]
                rw [if_pos hi] at hcnt
                omega
              · rw [if_neg hi]
                rw [if_neg hi] at hcnt
                omega
            simp only [groupDone, he, Bool.and_eq_true, beq_iff_eq] at hgd
            simp [groupDone, Option.getD_some, h2, hgd.2]

/-- C2 amended witness: a last-flagged Data packet with the fresh chunk
index 1 applied to the done store (whose group 0 held one chunk) rewrites
the expected count to 2 and keeps the store done, exactly as `keepsDone`
predicts. -/
theorem done_preserved_iff_witness :
    received_all_packets (process_packet exDoneStore (.data 0 1 true [5])) = true ↔
      keepsDone exDoneStore (.data 0 1 true [5]) :=
  done_preserved_iff exDoneStore (.data 0 1 true [5]) (by decide)

/-- C5 amended: a Data packet stores its payload under its chunk index in its
file's group (creating the group if absent, overwriting any payload at that
index — the second conjunct), and sets the expected count to
`(chunk_index + 1) % 2 ^ 16` exactly when `is_last` is set, leaving it
untouched otherwise. -/
theorem data_packet_updates_group (m : FileManager) (fid : Byte) (idx : Nat)
    (last : Bool) (payload : List Byte) :
    alLookup fid (process_packet m (.data fid idx last payload)) =
      some
        { name := ((alLookup fid m).getD emptyGroup).name
          expected :=
            if last then some ((idx + 1) % 2 ^ 16)
            else ((alLookup fid m).getD emptyGroup).expected
          chunks := alInsert idx payload ((alLookup fid m).getD emptyGroup).chunks } ∧
      alLookup idx (alInsert idx payload ((alLookup fid m).getD emptyGroup).chunks) =
        some payload := by
  constructor
  · simp [process_packet, alLookup_upsert]
  · rw [alLookup_insert, if_pos rfl]

/-- C5 counterexample: a last-flagged Data packet with chunk index 65535 (the
wire maximum, bytes `0xFF 0xFF`) stores an expected count of 0, not
`chunk_index + 1 = 65536` — the `u16` addition wraps. -/
theorem expected_count_wraps :
    alLookup (0 : Byte) (process_packet [] (.data 0 65535 true [])) =
        some ⟨none, some 0, [(65535, [])]⟩ ∧ (0 : Nat) ≠ 65535 + 1 := by
  decide

/-- C8: `process_packet` never removes anything — every file id present
before is present after, and within a looked-up group every buffered chunk
index is still buffered after. -/
theorem store_is_accumulator (m : FileManager) (p : Packet) :
    (∀ fid, fid ∈ m.map Prod.fst → fid ∈ (process_packet m p).map Prod.fst) ∧
    (∀ fid g, alLookup fid m = some g →
      ∃ g', alLookup fid (process_packet m p) = some g' ∧
        ∀ k, k ∈ g.chunks.map Prod.fst → k ∈ g'.chunks.map Prod.fst) := by
  cases p with
  | header t n =>
    refine ⟨fun fid h => mem_keys_upsert _ _ m h, fun fid g hg => ?_⟩
    simp only [process_packet, alLookup_upsert]
    by_cases hft : fid = t
    · subst hft
      rw [if_pos rfl, hg]
      exact ⟨_, rfl, fun k hk => hk⟩
    · rw [if_neg hft]
      exact ⟨g, hg, fun k hk => hk⟩
  | data t idx last payload =>
    refine ⟨fun fid h => mem_keys_upsert _ _ m h, fun fid g hg => ?_⟩
    simp only [process_packet, alLookup_upsert]
    by_cases hft : fid = t
    · subst hft
      rw [if_pos rfl, hg]
      exact ⟨_, rfl, fun k hk => mem_keys_insert _ _ hk⟩
    · rw [if_neg hft]
      exact ⟨g, hg, fun k hk => hk⟩

/-- C8 witness: a Data packet applied to the done store keeps file id 0 and
its buffered chunk index 0. -/
theorem store_is_accumulator_witness :
    ((0 : Byte) ∈ (process_packet exDoneStore (.data 0 7 false [9])).map Prod.fst) ∧
      ∃ g', alLookup (0 : Byte) (process_packet exDoneStore (.data 0 7 false [9])) =
          some g' ∧
        ∀ k, k ∈ (([(0, [1])] : List (Nat × List Byte)).map Prod.fst) →
          k ∈ g'.chunks.map Prod.fst :=
  ⟨(store_is_accumulator exDoneStore (.data 0 7 false [9])).1 0 (by decide),
   (store_is_accumulator exDoneStore (.data 0 7 false [9])).2 0
     ⟨some [97], some 1, [(0, [1])]⟩ (by decide)⟩

/-! ### Completeness counts chunks, not indices (C10) -/

/-- C10: after `gapPackets` the transfer is declared done although file 0's
buffered indices are `{2, 1}` with `expected_count = 2` — index 0 was never
received — and the written stream is just chunk 1 followed by chunk 2, the
missing index's bytes silently absent. -/
theorem complete_by_cardinality_only :
    received_all_packets (applyAll [] gapPackets) = true ∧
      alLookup (0 : Byte) (applyAll [] gapPackets) =
        some ⟨some [97], some 2, [(2, [9, 9]), (1, [8])]⟩ ∧
      (0 : Nat) ∉ ([(2, [9, 9]), (1, [8])] : List (Nat × List Byte)).map Prod.fst ∧
      fileBytes [(2, [9, 9]), (1, [8])] = [8, 9, 9] := by
  decide

/-! ### Order independence of the written output (C6) -/

theorem optGroupEquiv_of_eq {o₁ o₂ : Option FileGroup} (h : o₁ = o₂) :
    optGroupEquiv o₁ o₂ := by
  subst h
  cases o₁ with
  | none => trivial
  | some g => exact ⟨rfl, fun k => rfl⟩

theorem storeObsEquiv_refl (m : FileManager) : storeObsEquiv m m :=
  fun _ => optGroupEquiv_of_eq rfl

theorem optGroupEquiv_trans {o₁ o₂ o₃ : Option FileGroup}
    (h1 : optGroupEquiv o₁ o₂) (h2 : optGroupEquiv o₂ o₃) : optGroupEquiv o₁ o₃ := by
  cases o₁ <;> cases o₂ <;> cases o₃
  all_goals simp only [optGroupEquiv] at h1 h2 ⊢
  all_goals first
    | trivial
    | exact ⟨h1.1.trans h2.1, fun k => (h1.2 k).trans (h2.2 k)⟩

theorem storeObsEquiv_trans {m₁ m₂ m₃ : FileManager}
    (h1 : storeObsEquiv m₁ m₂) (h2 : storeObsEquiv m₂ m₃) : storeObsEquiv m₁ m₃ :=
  fun fid => optGroupEquiv_trans (h1 fid) (h2 fid)

/-- `process_packet` respects observational equivalence. -/
theorem process_congr {m₁ m₂ : FileManager} (h : storeObsEquiv m₁ m₂) (p : Packet) :
    storeObsEquiv (process_packet m₁ p) (process_packet m₂ p) := by
  intro fid
  cases p with
  | header f n =>
    simp only [process_packet, alLookup_upsert]
    by_cases hf : fid = f
    · rw [if_pos hf, if_pos hf]
      subst hf
      have hl := h fid
      cases hl₁ : alLookup fid m₁ with
      | none =>
        cases hl₂ : alLookup fid m₂ with
        | none => exact optGroupEquiv_of_eq rfl
        | some g₂ => rw [hl₁, hl₂] at hl; exact hl.elim
      | some g₁ =>
        cases hl₂ : alLookup fid m₂ with
        | none => rw [hl₁, hl₂] at hl; exact hl.elim
        | some g₂ =>
          rw [hl₁, hl₂] at hl
          simp only [optGroupEquiv] at hl
          simp only [Option.getD_some]
          exact ⟨rfl, hl.2⟩
    · rw [if_neg hf, if_neg hf]
      exact h fid
  | data f i l d =>
    simp only [alLookup_process_data]
    by_cases hf : fid = f
    · rw [if_pos hf, if_pos hf]
      have hl := h f
      cases hl₁ : alLookup f m₁ with
      | none =>
        cases hl₂ : alLookup f m₂ with
        | none => exact optGroupEquiv_of_eq rfl
        | some g₂ => rw [hl₁, hl₂] at hl; exact hl.elim
      | some g₁ =>
        cases hl₂ : alLookup f m₂ with
        | none => rw [hl₁, hl₂] at hl; exact hl.elim
        | some g₂ =>
          rw [hl₁, hl₂] at hl
          simp only [optGroupEquiv] at hl
          simp only [Option.getD_some]
          refine ⟨hl.1, fun k => ?_⟩
          rw [alLookup_insert, alLookup_insert]
          by_cases hk : k = i
          · rw [if_pos hk, if_pos hk]
          · rw [if_neg hk, if_neg hk]
            exact hl.2 k
    · rw [if_neg hf, if_neg hf]
      exact h fid

/-- `applyAll` respects observational equivalence. -/
theorem applyAll_congr {m₁ m₂ : FileManager} (h : storeObsEquiv m₁ m₂)
    (ps : List Packet) : storeObsEquiv (applyAll m₁ ps) (applyAll m₂ ps) := by
  induction ps generalizing m₁ m₂ with
  | nil => exact h
  | cons p tl ih => exact ih (process_congr h p)

/-- Two Data packets with distinct chunk indices commute up to observational
equivalence. -/
theorem process_data_comm (m : FileManager) {f₁ f₂ : Byte} {i₁ i₂ : Nat}
    {l₁ l₂ : Bool} {d₁ d₂ : List Byte} (hne : i₁ ≠ i₂) :
    storeObsEquiv
      (process_packet (process_packet m (.data f₁ i₁ l₁ d₁)) (.data f₂ i₂ l₂ d₂))
      (process_packet (process_packet m (.data f₂ i₂ l₂ d₂)) (.data f₁ i₁ l₁ d₁)) := by
  intro fid
  simp only [alLookup_process_data]
  by_cases hff : f₁ = f₂
  · subst hff
    by_cases hfid : fid = f₁
    · subst hfid
      simp only [eq_self_iff_true, if_true, Option.getD_some]
      refine ⟨rfl, fun k => ?_⟩
      rw [alLookup_insert, alLookup_insert, alLookup_insert, alLookup_insert]
      by_cases hk₂ : k = i₂ <;> by_cases hk₁ : k = i₁
      · exact absurd (hk₁.symm.trans hk₂) hne
      · simp [hk₁, hk₂, hne, Ne.symm hne]
      · simp [hk₁, hk₂, hne, Ne.symm hne]
      · simp [hk₁, hk₂]
    · simp only [if_neg hfid]
      exact optGroupEquiv_of_eq rfl
  · have hff' : f₂ ≠ f₁ := fun h => hff h.symm
    by_cases h1 : fid = f₁ <;> by_cases h2 : fid = f₂
    · exact absurd (h1.symm.trans h2) hff
    · simp only [h1, eq_self_iff_true, if_true, if_neg hff, if_neg hff',
        Option.getD_some]
      exact optGroupEquiv_of_eq rfl
    · simp only [h2, eq_self_iff_true, if_true, if_neg hff, if_neg hff',
        Option.getD_some]
      exact optGroupEquiv_of_eq rfl
    · simp only [if_neg h1, if_neg h2]
      exact optGroupEquiv_of_eq rfl

/-- Applying a permutation of a distinct-index run of Data packets yields an
observationally equivalent store. -/
theorem applyAll_perm_equiv :
    ∀ {ps ps' : List Packet}, ps.Perm ps' →
      (∀ p ∈ ps, p.isData = true) →
      ps.Pairwise (fun p q => p.chunkIdx ≠ q.chunkIdx) →
      ∀ m : FileManager, storeObsEquiv (applyAll m ps) (applyAll m ps') := by
  intro ps ps' hperm
  induction hperm with
  | nil => exact fun _ _ m => storeObsEquiv_refl _
  | cons x hp ih =>
    intro hdata hdist m
    exact ih (fun p h => hdata p (List.mem_cons_of_mem _ h)) hdist.of_cons
      (process_packet m x)
  | swap x y l =>
    intro hdata hdist m
    have hx : x.isData = true := hdata x (by simp)
    have hy : y.isData = true := hdata y (by simp)
    have hxy : y.chunkIdx ≠ x.chunkIdx :=
      (List.pairwise_cons.mp hdist).1 x (by simp)
    show storeObsEquiv (applyAll (process_packet (process_packet m y) x) l)
      (applyAll (process_packet (process_packet m x) y) l)
    apply applyAll_congr
    cases x with
    | header f n => simp [Packet.isData] at hx
    | data fx ix lx dx =>
      cases y with
      | header f n => simp [Packet.isData] at hy
      | data fy iy ly dy =>
        exact process_data_comm m (by simpa [Packet.chunkIdx] using hxy)
  | trans h₁ h₂ ih₁ ih₂ =>
    intro hdata hdist m
    exact storeObsEquiv_trans (ih₁ hdata hdist m)
      (ih₂ (fun p hp => hdata p (h₁.mem_iff.mpr hp))
        ((h₁.pairwise_iff fun h => Ne.symm h).mp hdist) m)

/-- Equal chunk maps (as lookup functions, with duplicate-free index lists)
reassemble to the same byte stream. -/
theorem fileBytes_congr {c₁ c₂ : List (Nat × List Byte)}
    (h1 : (c₁.map Prod.fst).Nodup) (h2 : (c₂.map Prod.fst).Nodup)
    (h : ∀ k, alLookup k c₁ = alLookup k c₂) : fileBytes c₁ = fileBytes c₂ := by
  have hmem : ∀ k, k ∈ c₁.map Prod.fst ↔ k ∈ c₂.map Prod.fst := by
    intro k
    rw [← alLookup_isSome_iff, ← alLookup_isSome_iff, h k]
  have hperm : (c₁.map Prod.fst).Perm (c₂.map Prod.fst) :=
    (List.perm_ext_iff_of_nodup h1 h2).mpr hmem
  have hsorted :
      (c₁.map Prod.fst).insertionSort (· ≤ ·) =
        (c₂.map Prod.fst).insertionSort (· ≤ ·) :=
    List.eq_of_perm_of_sorted
      ((List.perm_insertionSort _ _).trans
        (hperm.trans (List.perm_insertionSort _ _).symm))
      (List.sorted_insertionSort _ _) (List.sorted_insertionSort _ _)
  have hfun : (fun k => (alLookup k c₁).getD ([] : List Byte)) =
      fun k => (alLookup k c₂).getD [] :=
    funext fun k => by rw [h k]
  rw [fileBytes, fileBytes, hsorted, hfun]

/-- Each `process_packet` keeps the store well formed. -/
theorem WF_process (m : FileManager) (p : Packet) (h : WF m) :
    WF (process_packet m p) := by
  obtain ⟨h1, h2⟩ := h
  cases p with
  | header f n =>
    refine ⟨nodup_keys_upsert _ _ _ _ h1, ?_⟩
    intro q hq
    rcases mem_upsert _ _ _ _ q hq with hm | hm
    · exact h2 q hm
    · subst hm
      cases hg : alLookup f m with
      | none => simp [hg, emptyGroup]
      | some g =>
        have := h2 (f, g) (alLookup_mem hg)
        simpa [hg] using this
  | data f i l d =>
    refine ⟨nodup_keys_upsert _ _ _ _ h1, ?_⟩
    intro q hq
    rcases mem_upsert _ _ _ _ q hq with hm | hm
    · exact h2 q hm
    · subst hm
      cases hg : alLookup f m with
      | none => simp [hg, emptyGroup, alInsert, alUpsert]
      | some g =>
        have hgn := h2 (f, g) (alLookup_mem hg)
        simp only [hg, Option.getD_some]
        rw [keys_insert]
        by_cases hi : i ∈ g.chunks.map Prod.fst
        · simpa [hi] using hgn
        · simp [hi, List.nodup_append, hgn]

theorem WF_applyAll (ps : List Packet) (m : FileManager) (h : WF m) :
    WF (applyAll m ps) := by
  induction ps generalizing m with
  | nil => exact h
  | cons p tl ih => exact ih _ (WF_process m p h)

/-- C6: the writer emits the chunks in ascending index order (`fileBytes`),
so Data packets with pairwise distinct chunk indices produce, in any
application order, byte-identical names and written streams for every file
id. -/
theorem write_order_independent (m : FileManager) (hwf : WF m)
    (ps ps' : List Packet) (hperm : ps.Perm ps')
    (hdata : ∀ p ∈ ps, p.isData = true)
    (hdist : ps.Pairwise fun p q => p.chunkIdx ≠ q.chunkIdx) (fid : Byte) :
    fileOutput (applyAll m ps) fid = fileOutput (applyAll m ps') fid := by
  have hequiv := applyAll_perm_equiv hperm hdata hdist m fid
  have hwf1 := WF_applyAll ps m hwf
  have hwf2 := WF_applyAll ps' m hwf
  cases hl₁ : alLookup fid (applyAll m ps) with
  | none =>
    cases hl₂ : alLookup fid (applyAll m ps') with
    | none => simp [fileOutput, hl₁, hl₂]
    | some g₂ => rw [hl₁, hl₂] at hequiv; exact hequiv.elim
  | some g₁ =>
    cases hl₂ : alLookup fid (applyAll m ps') with
    | none => rw [hl₁, hl₂] at hequiv; exact hequiv.elim
    | some g₂ =>
      rw [hl₁, hl₂] at hequiv
      simp only [optGroupEquiv] at hequiv
      have hn₁ : (g₁.chunks.map Prod.fst).Nodup :=
        hwf1.2 (fid, g₁) (alLookup_mem hl₁)
      have hn₂ : (g₂.chunks.map Prod.fst).Nodup :=
        hwf2.2 (fid, g₂) (alLookup_mem hl₂)
      simp only [fileOutput, hl₁, hl₂, Option.map_some']
      rw [hequiv.1, fileBytes_congr hn₁ hn₂ hequiv.2]

/-- C6 witness: two chunks of file 0 applied out of order and in order give
the same output. -/
theorem write_order_independent_witness :
    fileOutput (applyAll [] [.data 0 2 false [9], .data 0 0 false [1]]) 0 =
      fileOutput (applyAll [] [.data 0 0 false [1], .data 0 2 false [9]]) 0 :=
  write_order_independent [] (by decide) _ _ (List.Perm.swap _ _ _)
    (by decide) (by decide) 0

/-- C9: the decoder is total and panic-free — running it with every slice
index modelled as a checked access (`none` = out-of-bounds panic) always
yields `some` result, namely the abstract decoder's Header packet, Data
packet, or parse error. -/
theorem decode_total (bytes : List Byte) :
    tryFromChecked bytes = some (tryFrom bytes) := by
  match bytes with
  | [] => rfl
  | [a] => rfl
  | a :: b :: rest =>
    by_cases hpar : a.val % 2 = 0
    · cases hu : utf8Decode rest <;>
        simp [tryFromChecked, tryFrom, hpar, hu]
    · match rest with
      | [] => simp [tryFromChecked, tryFrom, hpar]
      | [c] => simp [tryFromChecked, tryFrom, hpar]
      | c :: d :: tl =>
        have hl2 : ¬ tl.length + 1 + 1 + 1 + 1 < 2 := by omega
        have hl4 : ¬ tl.length + 1 + 1 + 1 + 1 < 4 := by omega
        simp [tryFromChecked, tryFrom, hpar, hl2, hl4]

